import Mathlib

/-!
Verification of the race-condition-safe reservation subsystem of the
booking-service repository.

Sources embedded here:
* `src/booking-service/worker/src/worker.ts` — the Cloudflare Workers create
  path (`createBooking`), its SQL overlap test, its lock key handling and its
  `try/finally` release discipline.
* `src/booking-service/src/utils/validators.js` — the Zod validation schemas.
* the Fastify API server (`index.js`, stored in the repository inside
  `src/booking-service/src/utils/logger.js` after the logger code) — the
  `POST /api/bookings` and reschedule handlers.
* The core `BookingService.js` / `RedisLock.js` modules are not present under
  `src/`; only their tests (`tests/concurrency.test.js`), their caller (the
  Fastify server) and their validators are.  Definitions for those components
  are modelled from the specification and carry a doc comment starting with
  `Modelled from the spec:`.

Timestamps are modelled as `Int` instants.  The stores under verification keep
ISO-8601 UTC strings (`TEXT` columns compared byte-wise by SQLite, `DateTime`
values in the core), and for such strings byte-wise order coincides with
instant order, so a single linearly ordered time scale is faithful.
-/

namespace BookingSpec

/-! ## Interval overlap tests (worker.ts lines 92-102, spec section 4.3 step 3)

The Workers SQL query rejects a new interval `[c, d)` when an existing
non-cancelled row `[a, b)` satisfies one of three disjuncts:

* contains-start: `start_time <= ?new.start AND end_time > ?new.start`
* contains-end:   `start_time < ?new.end AND end_time >= ?new.end`
* fully-contained:`start_time >= ?new.start AND end_time <= ?new.end`

The spec states this is equivalent to the single half-open overlap condition
`existing.start < new.end && new.start < existing.end`.  The tests are stated
over any linear order, covering both the `TEXT` timestamps of the worker and
the `DateTime` instants of the core. -/

/-- Contains-start disjunct of the SQL overlap test:
`existing.start <= new.start AND existing.end > new.start`. -/
def containsStart {α : Type} [LinearOrder α] (a b c _d : α) : Bool :=
  decide (a ≤ c) && decide (b > c)

/-- Contains-end disjunct of the SQL overlap test:
`existing.start < new.end AND existing.end >= new.end`. -/
def containsEnd {α : Type} [LinearOrder α] (a b _c d : α) : Bool :=
  decide (a < d) && decide (b ≥ d)

/-- Fully-contained disjunct of the SQL overlap test:
`existing.start >= new.start AND existing.end <= new.end`. -/
def fullyContained {α : Type} [LinearOrder α] (a b c d : α) : Bool :=
  decide (a ≥ c) && decide (b ≤ d)

/-- The three-way overlap test used by the create path (worker.ts 96-99):
disjunction of contains-start, contains-end and fully-contained. -/
def threeWayOverlap {α : Type} [LinearOrder α] (a b c d : α) : Bool :=
  containsStart a b c d || containsEnd a b c d || fullyContained a b c d

/-- The single overlap condition of the spec:
`existing.start < new.end && new.start < existing.end`. -/
def singleOverlap {α : Type} [LinearOrder α] (a b c d : α) : Bool :=
  decide (a < d) && decide (c < b)

end BookingSpec

namespace BookingSpec

/-- C3: for intervals `[a,b)` (existing) and `[c,d)` (new), each non-empty,
the three-way overlap test of the create path holds if and only if the single
condition `existing.start < new.end AND new.start < existing.end` holds. -/
theorem threeWay_eq_single {α : Type} [LinearOrder α] (a b c d : α)
    (hab : a < b) (hcd : c < d) :
    threeWayOverlap a b c d = singleOverlap a b c d := by
  rw [Bool.eq_iff_iff]
  simp only [threeWayOverlap, containsStart, containsEnd, fullyContained,
    singleOverlap, Bool.or_eq_true, Bool.and_eq_true, decide_eq_true_eq]
  constructor
  · rintro ((⟨h1, h2⟩ | ⟨h1, h2⟩) | ⟨h1, h2⟩)
    · exact ⟨lt_of_le_of_lt h1 hcd, h2⟩
    · exact ⟨h1, lt_of_lt_of_le hcd h2⟩
    · exact ⟨lt_of_lt_of_le hab h2, lt_of_le_of_lt h1 hab⟩
  · rintro ⟨had, hcb⟩
    rcases le_or_lt a c with hac | hca
    · exact Or.inl (Or.inl ⟨hac, hcb⟩)
    · rcases le_or_lt b d with hbd | hdb
      · exact Or.inr ⟨le_of_lt hca, hbd⟩
      · exact Or.inl (Or.inr ⟨had, le_of_lt hdb⟩)

/-- Witness for C3 at the concrete intervals `[0,2)` and `[1,3)`. -/
theorem threeWay_eq_single_witness :
    (0 : Int) < 2 ∧ (1 : Int) < 3 ∧
      threeWayOverlap (0 : Int) 2 1 3 = singleOverlap (0 : Int) 2 1 3 :=
  ⟨by decide, by decide, threeWay_eq_single 0 2 1 3 (by decide) (by decide)⟩

end BookingSpec

namespace Worker

/-! ## Cloudflare Workers variant (`worker.ts`)

`createBooking` in `worker.ts` parses `startTime`, `endTime`, `metadata` from
the request body, rejects missing fields with 400, writes the lock key
`lock:startTime:endTime` into KV, treats a falsy result of the `put` as a held
lock (409 `LOCK_CONFLICT`), and inside `try { ... } finally { CACHE.delete }`
runs the SQL overlap query, rejecting with 409 `TIME_SLOT_CONFLICT` or
inserting a `CONFIRMED` row.  Exceptions anywhere are caught and mapped to a
500 response, after the `finally` clause has run.

Environment effects are explicit inputs: `putTruthy` is the truthiness of the
value the KV binding returns from `put` (the platform's, not the code's,
choice), and `queryFails` / `insertFails` say whether the two D1 statements
throw.  `startTime` / `endTime` are `Option Int`: `none` models an absent (or
otherwise falsy) body field, `some t` a present ISO-8601 UTC timestamp,
represented by its instant since SQLite compares the TEXT column byte-wise in
the same order. -/

/-- A row of the `bookings` table of `schema-d1.sql`:
`id, start_time, end_time, status, metadata` (audit columns omitted). -/
structure BRow where
  id : String
  start_time : Int
  end_time : Int
  status : String
  metadata : String
deriving DecidableEq

/-- The state a `createBooking` invocation touches: the `bookings` table and
the value stored under this request's KV lock key (`none` = key absent). -/
structure WorkerState where
  bookings : List BRow
  lockVal : Option String
deriving DecidableEq

/-- Responses of `createBooking` (worker.ts): 400 missing fields, 409
`LOCK_CONFLICT`, 409 `TIME_SLOT_CONFLICT`, 500 caught exception, 201 created. -/
inductive WResp
  | badRequest
  | lockConflict
  | timeSlotConflict
  | serverError
  | created (id : String) (s e : Int)
deriving DecidableEq

/-- The `SELECT id FROM bookings WHERE status != 'CANCELLED' AND (...) LIMIT 1`
overlap query of worker.ts lines 93-102, for a new interval `[s, e)`. -/
def sqlOverlapExists (rows : List BRow) (s e : Int) : Bool :=
  rows.any (fun r =>
    (r.status != "CANCELLED") && BookingSpec.threeWayOverlap r.start_time r.end_time s e)

/-- `createBooking` of worker.ts lines 65-140 (body already JSON-parsed). -/
def createBooking (st : WorkerState) (startTime endTime : Option Int)
    (metadata bookingId lockValue : String) (putTruthy queryFails insertFails : Bool) :
    WResp × WorkerState :=
  match startTime, endTime with
  | some s, some e =>
    -- CACHE.put stores the lock value under the lock key (with a TTL)
    let st₁ : WorkerState := { st with lockVal := some lockValue }
    if !putTruthy then
      (WResp.lockConflict, st₁)
    else
      -- try { overlap query; insert } finally { CACHE.delete(lockKey) }
      if queryFails then
        (WResp.serverError, { st₁ with lockVal := none })
      else if sqlOverlapExists st₁.bookings s e then
        (WResp.timeSlotConflict, { st₁ with lockVal := none })
      else if insertFails then
        (WResp.serverError, { st₁ with lockVal := none })
      else
        (WResp.created bookingId s e,
         { bookings := st₁.bookings ++ [⟨bookingId, s, e, "CONFIRMED", metadata⟩],
           lockVal := none })
  | _, _ => (WResp.badRequest, st)

/-- Store holding exactly one non-cancelled reservation for `[10:00, 10:30)`
(instants in minutes: 600 and 630), lock key absent. -/
def c4Store : WorkerState :=
  ⟨[⟨"b0", 600, 630, "CONFIRMED", "existing"⟩], none⟩

end Worker

namespace Worker

/-- C4: with exactly one non-cancelled reservation for `[10:00,10:30)` in the
store, create requests for `[10:00,10:30)`, `[09:45,10:15)`, `[10:15,10:45)`
and `[10:05,10:25)` are each rejected with a conflict error leaving the
bookings store unchanged (and the lock key released), while `[10:30,11:00)`
succeeds: a new interval starting exactly at an existing end does not overlap.
Instants are minutes of the day; the KV `put` result is truthy and neither D1
statement throws, so the overlap query alone decides each request. -/
theorem overlap_cases :
    (createBooking c4Store (some 600) (some 630) "m" "b1" "v1" true false false
        = (WResp.timeSlotConflict, c4Store)) ∧
    (createBooking c4Store (some 585) (some 615) "m" "b2" "v2" true false false
        = (WResp.timeSlotConflict, c4Store)) ∧
    (createBooking c4Store (some 615) (some 645) "m" "b3" "v3" true false false
        = (WResp.timeSlotConflict, c4Store)) ∧
    (createBooking c4Store (some 605) (some 625) "m" "b4" "v4" true false false
        = (WResp.timeSlotConflict, c4Store)) ∧
    (createBooking c4Store (some 630) (some 660) "m" "b5" "v5" true false false
        = (WResp.created "b5" 630 660,
           ⟨[⟨"b0", 600, 630, "CONFIRMED", "existing"⟩,
             ⟨"b5", 630, 660, "CONFIRMED", "m"⟩], none⟩)) := by
  decide

/-- C6: every execution of `createBooking` that acquires the lease (fields
present, KV `put` reported truthy, so the `try` block is entered) has deleted
the lock key by the time it returns, on every exit path of the critical
section: the overlap-conflict rejection, an exception thrown by the overlap
query, an exception thrown by the insert, and the successful insert — the
`finally` clause of worker.ts lines 129-132 runs in all four cases. -/
theorem lock_released_on_every_path (st : WorkerState) (s e : Int)
    (metadata bookingId lockValue : String) (queryFails insertFails : Bool) :
    ((createBooking st (some s) (some e) metadata bookingId lockValue
        true queryFails insertFails).2).lockVal = none := by
  cases queryFails <;> cases insertFails <;>
    simp [createBooking] <;> split <;> simp

end Worker

namespace Core

/-! ## Core data model (spec section 3) and Lease Lock Client (spec section 4.1)

The core Reservation Service (`BookingService.js`) and the Lease Lock Client
(`RedisLock.js`) are part of this repository but are not present under `src/`;
only their tests (`tests/concurrency.test.js`), their caller (the Fastify
server) and their validation schemas are.  The definitions in this namespace
are therefore modelled from the specification. -/

/-- Reservation status (spec section 3). -/
inductive RStatus
  | pending
  | confirmed
  | cancelled
deriving DecidableEq

/-- Modelled from the spec: the `Reservation` record of section 3 (the audit
trail and the `version`/`updatedAt` counter, which no claim under verification
mentions, are omitted).  The interval is `[startTime, endTime)`, half-open,
instants on a single canonical UTC time scale. -/
structure Reservation where
  id : String
  ownerId : String
  startTime : Int
  endTime : Int
  status : RStatus
  idempotencyToken : String
  meta : String
deriving DecidableEq

/-- A reservation counts against the overlap invariant iff its status is in
`{PENDING, CONFIRMED}`, i.e. it is not cancelled. -/
def Reservation.isLive (r : Reservation) : Bool :=
  r.status != RStatus.cancelled

/-- Modelled from the spec: the Idempotency Ledger lookup
`findByToken(token) -> Reservation | none` (section 4.2), backed by the store. -/
def findByToken (store : List Reservation) (tok : String) : Option Reservation :=
  store.find? (fun r => r.idempotencyToken == tok)

/-- Modelled from the spec: the transactional re-check of section 4.3 step 3 —
is there an existing reservation for `owner` with status in
`{PENDING, CONFIRMED}` whose interval overlaps `[c, d)`. -/
def overlapExists (store : List Reservation) (owner : String) (c d : Int) : Bool :=
  store.any (fun r =>
    (r.ownerId == owner) && r.isLive &&
      BookingSpec.singleOverlap r.startTime r.endTime c d)

/-! ### Lease Lock Client -/

/-- The coordination store for leases: an association list mapping a resource
key to the holder token and the expiry instant of the lease stored under it. -/
abbrev LockState := List (String × String × Nat)

/-- Modelled from the spec: a `LeaseHandle` carries the resource key and the
holder-unique token of the acquisition (section 4.1). -/
structure LeaseHandle where
  key : String
  token : String
deriving DecidableEq

/-- The lease currently stored under key `k`, if any. -/
def lookupLease (st : LockState) (k : String) : Option (String × Nat) :=
  (st.find? (fun e => e.1 == k)).map (fun e => e.2)

/-- Remove whatever lease is stored under key `k`. -/
def removeLease (st : LockState) (k : String) : LockState :=
  st.filter (fun e => e.1 != k)

/-- Store a lease under key `k` (replacing any previous entry for `k`). -/
def setLease (st : LockState) (k tok : String) (exp : Nat) : LockState :=
  (k, tok, exp) :: removeLease st k

/-- Modelled from the spec: the atomic "set if absent, with expiry" primitive
of the coordination store (sections 4.1 and 6).  At instant `now` it refuses
to touch the key while an unexpired lease is stored under it, and otherwise
installs a lease expiring at `now + ttl`. -/
def setIfAbsent (st : LockState) (k tok : String) (ttl now : Nat) : Bool × LockState :=
  match lookupLease st k with
  | some (_, exp) =>
    if now < exp then (false, st) else (true, setLease st k tok (now + ttl))
  | none => (true, setLease st k tok (now + ttl))

/-- Modelled from the spec: `acquire(resourceKey, ttl)` of the Lease Lock
Client (section 4.1).  It performs the atomic set-if-absent at instant `now`;
on conflict it retries with a fixed 50 ms backoff up to the bounded retry
budget `retries`, then returns `none` — structural recursion on the budget, so
it never blocks indefinitely. -/
def acquireLease (st : LockState) (k tok : String) (ttl : Nat) :
    Nat → Nat → Option LeaseHandle × LockState
  | now, 0 =>
    match setIfAbsent st k tok ttl now with
    | (true, st₁) => (some ⟨k, tok⟩, st₁)
    | (false, _) => (none, st)
  | now, retries + 1 =>
    match setIfAbsent st k tok ttl now with
    | (true, st₁) => (some ⟨k, tok⟩, st₁)
    | (false, _) => acquireLease st k tok ttl (now + 50) retries

/-- Modelled from the spec: `release(handle)` of the Lease Lock Client
(section 4.1) — compare-and-delete: the lease under `handle.key` is removed
only if the stored value still equals the handle's holder token. -/
def releaseLease (st : LockState) (h : LeaseHandle) : LockState :=
  match lookupLease st h.key with
  | some (tok, _) => if tok == h.token then removeLease st h.key else st
  | none => st

/-- The lease resource key for a create: `ownerId + canonical(interval.start)`
(spec section 4.3 step 2). -/
def resourceKey (owner : String) (c : Int) : String :=
  owner ++ ":" ++ toString c

/-- Outcome of a sequential `createReservation` call. -/
inductive SOutcome
  | ok (r : Reservation)
  | lockConflict
  | overlapConflict
deriving DecidableEq

/-- Modelled from the spec: `createReservation` of section 4.3 as a sequential
function (steps 1-5; the audit record of step 4 and the storage-level
constraint translation of step 6, which no claim under verification mentions,
are omitted).  `now`, `ttl`, `retries` parametrise the lease acquisition;
`rid` is the fresh reservation id and `holderTok` the holder-unique lease
token.  Returns the outcome, the new store and the new lock state. -/
def createReservation (store : List Reservation) (locks : LockState)
    (now ttl retries : Nat) (owner : String) (c d : Int) (status : RStatus)
    (meta tok rid holderTok : String) :
    SOutcome × List Reservation × LockState :=
  match findByToken store tok with
  | some r => (SOutcome.ok r, store, locks)
  | none =>
    match acquireLease locks (resourceKey owner c) holderTok ttl now retries with
    | (none, _) => (SOutcome.lockConflict, store, locks)
    | (some h, locks₁) =>
      if overlapExists store owner c d then
        (SOutcome.overlapConflict, store, releaseLease locks₁ h)
      else
        let r : Reservation := ⟨rid, owner, c, d, status, tok, meta⟩
        (SOutcome.ok r, store ++ [r], releaseLease locks₁ h)

/-- Outcome of a sequential `rescheduleReservation` call. -/
inductive ROutcome
  | ok (r : Reservation)
  | lockConflict
  | notFound
  | unauthorized
  | slotConflict
deriving DecidableEq

/-- Modelled from the spec: the overlap re-check of `rescheduleReservation`
(section 4.3), excluding the reservation's own id. -/
def overlapExistsExcl (store : List Reservation) (selfId owner : String)
    (c d : Int) : Bool :=
  store.any (fun r =>
    (r.id != selfId) && (r.ownerId == owner) && r.isLive &&
      BookingSpec.singleOverlap r.startTime r.endTime c d)

/-- Modelled from the spec: `rescheduleReservation(id, actorId, newInterval)`
of section 4.3 as a sequential function.  The lease keyed by the reservation
id is abstracted to `lockFree` (its acquisition outcome); load, authorize,
re-check overlap excluding itself, then atomically replace the interval —
either the full new interval replaces the old one or nothing changes. -/
def rescheduleReservation (store : List Reservation) (lockFree : Bool)
    (id actorId : String) (c d : Int) : ROutcome × List Reservation :=
  if !lockFree then (ROutcome.lockConflict, store)
  else
    match store.find? (fun r => r.id == id) with
    | none => (ROutcome.notFound, store)
    | some r =>
      if r.ownerId != actorId then (ROutcome.unauthorized, store)
      else if overlapExistsExcl store r.id r.ownerId c d then
        (ROutcome.slotConflict, store)
      else
        let r₁ : Reservation := { r with startTime := c, endTime := d }
        (ROutcome.ok r₁,
         store.map (fun x => if x.id == id then { x with startTime := c, endTime := d } else x))

end Core

namespace Api

/-! ## Zod validation schemas (`validators.js`) and Fastify handlers

`CreateBookingSchema` (validators.js lines 25-39) parses `startTime` through
`isoDateTimeSchema` and refines it with `(val) => val > new Date()`
("Start time must be in the future"); `CreateBookingWithTimeValidation`
(lines 42-48) additionally refines the whole object with
`new Date(data.endTime) > new Date(data.startTime)`.
`RescheduleBookingSchema` (lines 59-68) parses both times and refines only
with `endTime > startTime` — it has no future-start refinement.

The `isoDateTimeSchema` parse itself (`Date.parse`) is outside the embedding:
a request body is represented after parsing, by the instants its fields parse
to; a body whose fields do not parse is rejected before these refinements run
and never reaches the handlers modelled here.  `restOk` stands for the
outcome of the remaining field checks of the schema (`userId`, `status` enum,
`metadata` shape), which the claims under verification do not mention. -/

/-- A create request body after `isoDateTimeSchema` parsing. -/
structure CreateBody where
  userId : String
  startTime : Int
  endTime : Int
  metadata : String
  restOk : Bool
deriving DecidableEq

/-- `CreateBookingSchema` (validators.js 25-39): the `startTime` refinement
`val > new Date()` evaluated against the clock instant `now`, conjoined with
the remaining field checks. -/
def createBookingSchemaOk (b : CreateBody) (now : Int) : Bool :=
  b.restOk && decide (b.startTime > now)

/-- `CreateBookingWithTimeValidation` (validators.js 42-48): the schema plus
the refinement `new Date(data.endTime) > new Date(data.startTime)`. -/
def createBookingWithTimeValidationOk (b : CreateBody) (now : Int) : Bool :=
  createBookingSchemaOk b now && decide (b.endTime > b.startTime)

/-- `RescheduleBookingSchema` (validators.js 59-68): both times parsed, with
the single refinement `endTime > startTime`; no future-start requirement. -/
def rescheduleBookingSchemaOk (s e : Int) : Bool :=
  decide (e > s)

/-- The idempotency key selection of the `POST /api/bookings` handler:
`request.headers[x-idempotency-key] || uuidv4()` — an absent header, and
likewise an empty (falsy) header value, is replaced by a freshly generated
UUID `fresh`. -/
def idempotencyKeyOf (header : Option String) (fresh : String) : String :=
  match header with
  | some h => if h == "" then fresh else h
  | none => fresh

/-- Responses of the Fastify handlers, as far as the claims mention them. -/
inductive HResp
  | ok (r : Core.Reservation)
  | badRequest
  | conflict
  | notFound
  | serverError
deriving DecidableEq

/-- The `POST /api/bookings` handler: validate the body with
`CreateBookingWithTimeValidation` (reject with 400 before calling the
service), select the idempotency key from the `X-Idempotency-Key` header or a
fresh UUID, call `createReservation`, and map its conflicts to 409. -/
def postBookings (now : Int) (b : CreateBody) (header : Option String)
    (fresh : String) (store : List Core.Reservation) (locks : Core.LockState)
    (clock ttl retries : Nat) (rid holderTok : String) :
    HResp × List Core.Reservation × Core.LockState :=
  if createBookingWithTimeValidationOk b now then
    let key := idempotencyKeyOf header fresh
    match Core.createReservation store locks clock ttl retries b.userId
        b.startTime b.endTime Core.RStatus.confirmed b.metadata key rid holderTok with
    | (Core.SOutcome.ok r, store₁, locks₁) => (HResp.ok r, store₁, locks₁)
    | (Core.SOutcome.lockConflict, store₁, locks₁) => (HResp.conflict, store₁, locks₁)
    | (Core.SOutcome.overlapConflict, store₁, locks₁) => (HResp.conflict, store₁, locks₁)
  else (HResp.badRequest, store, locks)

/-- The `POST /api/bookings/:id/reschedule` handler: validate the body with
`RescheduleBookingSchema` (reject with 400 before calling the service), call
`rescheduleReservation`, and map its error kinds to transport responses. -/
def postReschedule (s e : Int) (id actorId : String)
    (store : List Core.Reservation) (lockFree : Bool) :
    HResp × List Core.Reservation :=
  if rescheduleBookingSchemaOk s e then
    match Core.rescheduleReservation store lockFree id actorId s e with
    | (Core.ROutcome.ok r, store₁) => (HResp.ok r, store₁)
    | (Core.ROutcome.lockConflict, store₁) => (HResp.serverError, store₁)
    | (Core.ROutcome.notFound, store₁) => (HResp.notFound, store₁)
    | (Core.ROutcome.unauthorized, store₁) => (HResp.badRequest, store₁)
    | (Core.ROutcome.slotConflict, store₁) => (HResp.conflict, store₁)
  else (HResp.badRequest, store)

end Api

namespace Core

/-! ## Lemmas about the Lease Lock Client -/

/-- If `acquireLease` succeeds, then any lease that was stored under the key
had already expired by the last attempted instant: acquisition succeeds only
when no unexpired lease exists at the moment of the successful set-if-absent. -/
theorem acquireLease_success_no_live (k tok : String) (ttl : Nat) :
    ∀ (n now : Nat) (st st₁ : LockState) (h : LeaseHandle),
      acquireLease st k tok ttl now n = (some h, st₁) →
      ∀ t e, lookupLease st k = some (t, e) → e ≤ now + 50 * n := by
  intro n
  induction n with
  | zero =>
    intro now st st₁ h hacq t e hlook
    simp only [acquireLease, setIfAbsent, hlook] at hacq
    by_cases hlt : now < e
    · simp [hlt] at hacq
    · omega
  | succ m ih =>
    intro now st st₁ h hacq t e hlook
    simp only [acquireLease, setIfAbsent, hlook] at hacq
    by_cases hlt : now < e
    · simp only [hlt, if_true] at hacq
      have := ih (now + 50) st st₁ h hacq t e hlook
      omega
    · omega

/-- If an unexpired lease is stored under the key throughout the whole retry
window, `acquireLease` fails with `none` after its bounded retries and leaves
the coordination store untouched: it never overwrites a live lease held by
another request. -/
theorem acquireLease_held_fails (k tok : String) (ttl : Nat) :
    ∀ (n now : Nat) (st : LockState) (t : String) (e : Nat),
      lookupLease st k = some (t, e) → now + 50 * n < e →
      acquireLease st k tok ttl now n = (none, st) := by
  intro n
  induction n with
  | zero =>
    intro now st t e hlook hlive
    have hlt : now < e := by omega
    simp [acquireLease, setIfAbsent, hlook, hlt]
  | succ m ih =>
    intro now st t e hlook hlive
    have hlt : now < e := by omega
    have hrec := ih (now + 50) st t e hlook (by omega)
    simp [acquireLease, setIfAbsent, hlook, hlt, hrec]

/-- If no lease is stored under the key, `acquireLease` succeeds on its first
attempt and installs a lease expiring at `now + ttl`. -/
theorem acquireLease_free (st : LockState) (k tok : String) (ttl now n : Nat)
    (hlook : lookupLease st k = none) :
    acquireLease st k tok ttl now n = (some ⟨k, tok⟩, setLease st k tok (now + ttl)) := by
  cases n <;> simp [acquireLease, setIfAbsent, hlook]

/-- After removing key `k`, no lease is stored under `k`. -/
theorem lookupLease_removeLease (st : LockState) (k : String) :
    lookupLease (removeLease st k) k = none := by
  induction st with
  | nil => rfl
  | cons hd tl ih =>
    by_cases hk : hd.1 == k
    · simp [removeLease, lookupLease, hk, ih]
    · simp [removeLease, lookupLease, hk, ih]

/-- Removing key `k` right after setting it undoes the set: the store returns
to its previous state with key `k` absent. -/
theorem removeLease_setLease (st : LockState) (k tok : String) (e : Nat) :
    removeLease (setLease st k tok e) k = removeLease st k := by
  simp only [removeLease, setLease, List.filter_cons, bne_self_eq_false,
    Bool.false_eq_true, if_false, List.filter_filter, Bool.and_self]

/-- Removing a key twice is the same as removing it once. -/
theorem removeLease_removeLease (st : LockState) (k : String) :
    removeLease (removeLease st k) k = removeLease st k := by
  simp [removeLease, List.filter_filter]

/-- Releasing the lease one just set with one's own handle removes it. -/
theorem releaseLease_setLease (st : LockState) (k tok : String) (e : Nat) :
    releaseLease (setLease st k tok e) ⟨k, tok⟩ = removeLease st k := by
  simp [releaseLease, setLease, lookupLease, removeLease_setLease st k tok e,
    removeLease, setLease]

end Core

namespace Core

/-- C5: the lock acquisition of the create path is the Lease Lock Client's
atomic set-if-absent-with-expiry.  Conjuncts: (1) when it succeeds, every
lease stored under the resource key had expired by the successful attempt, so
it succeeds only if no unexpired lease exists; (2) when an unexpired lease is
held throughout the bounded fixed-backoff retry window it returns `none`
without ever overwriting the live lease; (3) `createReservation` then fails
that request with `LockConflict`, changing neither the store nor the lock
state — and since `acquireLease` recurses structurally on the retry budget it
never blocks indefinitely. -/
theorem create_lock_acquisition_set_if_absent :
    (∀ (st st₁ : LockState) (k tok : String) (ttl now n : Nat) (h : LeaseHandle),
        acquireLease st k tok ttl now n = (some h, st₁) →
        ∀ t e, lookupLease st k = some (t, e) → e ≤ now + 50 * n) ∧
    (∀ (st : LockState) (k tok : String) (ttl now n : Nat) (t : String) (e : Nat),
        lookupLease st k = some (t, e) → now + 50 * n < e →
        acquireLease st k tok ttl now n = (none, st)) ∧
    (∀ (store : List Reservation) (locks : LockState) (now ttl retries : Nat)
        (owner : String) (c d : Int) (status : RStatus) (meta tok rid holderTok : String),
        findByToken store tok = none →
        (acquireLease locks (resourceKey owner c) holderTok ttl now retries).1 = none →
        createReservation store locks now ttl retries owner c d status meta tok rid holderTok
          = (SOutcome.lockConflict, store, locks)) := by
  refine ⟨?_, ?_, ?_⟩
  · intro st st₁ k tok ttl now n h hacq t e hlook
    exact acquireLease_success_no_live k tok ttl n now st st₁ h hacq t e hlook
  · intro st k tok ttl now n t e hlook hlive
    exact acquireLease_held_fails k tok ttl n now st t e hlook hlive
  · intro store locks now ttl retries owner c d status meta tok rid holderTok hmiss hnone
    rcases hacq : acquireLease locks (resourceKey owner c) holderTok ttl now retries with
      ⟨res, locks₁⟩
    rw [hacq] at hnone
    simp only at hnone
    subst hnone
    simp [createReservation, hmiss, hacq]

/-- Witness for C5: a lease held until instant 10000 makes an acquisition
with 3 retries starting at instant 0 fail while leaving the stored lease
untouched, and the create path returns `LockConflict` on an untouched store. -/
theorem create_lock_acquisition_set_if_absent_witness :
    acquireLease [("alice:10", "other", 10000)] "alice:10" "mine" 5000 0 3
        = (none, [("alice:10", "other", 10000)]) ∧
    createReservation [] [("alice:10", "other", 10000)] 0 5000 3 "alice" 10 40
        RStatus.confirmed "m" "tok-1" "res-1" "mine"
      = (SOutcome.lockConflict, [], [("alice:10", "other", 10000)]) := by
  constructor
  · exact create_lock_acquisition_set_if_absent.2.1
      [("alice:10", "other", 10000)] "alice:10" "mine" 5000 0 3 "other" 10000
      (by decide) (by decide)
  · exact create_lock_acquisition_set_if_absent.2.2
      [] [("alice:10", "other", 10000)] 0 5000 3 "alice" 10 40
      RStatus.confirmed "m" "tok-1" "res-1" "mine" (by decide) (by decide)

/-- C7: releasing a lease is compare-and-delete.  Conjuncts: (1) if the value
stored under the handle's resource key carries a different holder token — the
lease expired and was re-acquired by another holder — `release` leaves the
coordination store untouched; (2) whenever `release` changes the store at all,
the stored value still equalled the releasing handle's holder token; (3) when
the stored value does match, the lease entry is removed. -/
theorem release_compare_and_delete :
    (∀ (st : LockState) (h : LeaseHandle) (t : String) (e : Nat),
        lookupLease st h.key = some (t, e) → t ≠ h.token → releaseLease st h = st) ∧
    (∀ (st : LockState) (h : LeaseHandle),
        releaseLease st h ≠ st → ∃ e, lookupLease st h.key = some (h.token, e)) ∧
    (∀ (st : LockState) (h : LeaseHandle) (e : Nat),
        lookupLease st h.key = some (h.token, e) →
        lookupLease (releaseLease st h) h.key = none) := by
  refine ⟨?_, ?_, ?_⟩
  · intro st h t e hlook hne
    simp [releaseLease, hlook, hne]
  · intro st h hchange
    rcases hlook : lookupLease st h.key with _ | ⟨t, e⟩
    · simp [releaseLease, hlook] at hchange
    · by_cases ht : t = h.token
      · subst ht
        exact ⟨e, rfl⟩
      · simp [releaseLease, hlook, ht] at hchange
  · intro st h e hlook
    have hrel : releaseLease st h = removeLease st h.key := by
      simp [releaseLease, hlook]
    rw [hrel]
    exact lookupLease_removeLease st h.key

/-- Witness for C7: a stale holder (token `mine`) cannot release the lease
that holder `other` re-acquired, and releasing one's own lease removes it. -/
theorem release_compare_and_delete_witness :
    releaseLease [("alice:10", "other", 10000)] ⟨"alice:10", "mine"⟩
        = [("alice:10", "other", 10000)] ∧
    lookupLease (releaseLease [("alice:10", "mine", 10000)] ⟨"alice:10", "mine"⟩)
        "alice:10" = none :=
  ⟨release_compare_and_delete.1 [("alice:10", "other", 10000)]
      ⟨"alice:10", "mine"⟩ "other" 10000 (by decide) (by decide),
   release_compare_and_delete.2.2 [("alice:10", "mine", 10000)]
      ⟨"alice:10", "mine"⟩ 10000 (by decide)⟩

/-! ## Lemmas about the Idempotency Ledger -/

/-- A token none of the stored reservations carries is not found. -/
theorem findByToken_eq_none (store : List Reservation) (tok : String)
    (h : ∀ r ∈ store, r.idempotencyToken ≠ tok) :
    findByToken store tok = none := by
  rw [findByToken, List.find?_eq_none]
  intro r hr
  simp [h r hr]

/-- Appending a reservation carrying the token to a store in which it is
fresh makes the lookup return exactly that reservation. -/
theorem findByToken_append (store : List Reservation) (r : Reservation)
    (h : findByToken store r.idempotencyToken = none) :
    findByToken (store ++ [r]) r.idempotencyToken = some r := by
  rw [findByToken] at h ⊢
  rw [List.find?_append, h, Option.none_or]
  simp [List.find?_cons]

end Core

namespace Core

/-- C2: idempotent replay.  If a create call with a token that is fresh in
the store returns a reservation `r` (necessarily by inserting it), then any
later create call presenting the same token — with arbitrary owner, interval,
status, metadata, ids and lock parameters — returns that exact reservation
`r` unchanged, with the identical id, leaving the store and the lock state
untouched; and the store contains exactly one reservation for that token. -/
theorem idempotent_replay (store : List Reservation) (locks : LockState)
    (now ttl retries : Nat) (owner : String) (c d : Int) (status : RStatus)
    (meta tok rid holderTok : String) (r : Reservation)
    (store₁ : List Reservation) (locks₁ : LockState)
    (hfresh : ∀ x ∈ store, x.idempotencyToken ≠ tok)
    (h1 : createReservation store locks now ttl retries owner c d status meta tok rid holderTok
            = (SOutcome.ok r, store₁, locks₁)) :
    (∀ (locks₂ : LockState) (now₂ ttl₂ retries₂ : Nat) (owner₂ : String)
        (c₂ d₂ : Int) (status₂ : RStatus) (meta₂ rid₂ holderTok₂ : String),
        createReservation store₁ locks₂ now₂ ttl₂ retries₂ owner₂ c₂ d₂ status₂
            meta₂ tok rid₂ holderTok₂ = (SOutcome.ok r, store₁, locks₂)) ∧
    r.id = rid ∧
    (store₁.filter (fun x => x.idempotencyToken == tok)).length = 1 := by
  have hmiss : findByToken store tok = none := findByToken_eq_none store tok hfresh
  rcases hacq : acquireLease locks (resourceKey owner c) holderTok ttl now retries with
    ⟨res, locksAcq⟩
  cases res with
  | none => simp [createReservation, hmiss, hacq] at h1
  | some hdl =>
    by_cases hov : overlapExists store owner c d
    · simp [createReservation, hmiss, hacq, hov] at h1
    · simp only [createReservation, hmiss, hacq, hov, Bool.false_eq_true,
        if_false, Prod.mk.injEq, SOutcome.ok.injEq] at h1
      obtain ⟨hr, hstore, hlocks⟩ := h1
      subst hr
      subst hstore
      have hfind : findByToken
          (store ++ [(⟨rid, owner, c, d, status, tok, meta⟩ : Reservation)]) tok
          = some ⟨rid, owner, c, d, status, tok, meta⟩ :=
        findByToken_append store ⟨rid, owner, c, d, status, tok, meta⟩ hmiss
      refine ⟨?_, rfl, ?_⟩
      · intro locks₂ now₂ ttl₂ retries₂ owner₂ c₂ d₂ status₂ meta₂ rid₂ holderTok₂
        simp [createReservation, hfind]
      · have hnil : store.filter (fun x => x.idempotencyToken == tok) = [] := by
          rw [List.filter_eq_nil_iff]
          intro x hx
          simp [hfresh x hx]
        simp [List.filter_append, hnil]

/-- Witness for C2: replaying token `t1` with a completely different payload
returns the first call's reservation unchanged on an unchanged store, and the
store holds exactly one reservation for `t1`. -/
theorem idempotent_replay_witness :
    createReservation
        [(⟨"r1", "alice", 10, 40, RStatus.confirmed, "t1", "m"⟩ : Reservation)]
        [] 9 1000 0 "bob" 50 90 RStatus.pending "other" "t1" "r2" "h2"
      = (SOutcome.ok ⟨"r1", "alice", 10, 40, RStatus.confirmed, "t1", "m"⟩,
         [⟨"r1", "alice", 10, 40, RStatus.confirmed, "t1", "m"⟩], []) ∧
    ([(⟨"r1", "alice", 10, 40, RStatus.confirmed, "t1", "m"⟩ : Reservation)].filter
        (fun x => x.idempotencyToken == "t1")).length = 1 :=
  have h := idempotent_replay [] [] 0 5000 3 "alice" 10 40 RStatus.confirmed
    "m" "t1" "r1" "h1" ⟨"r1", "alice", 10, 40, RStatus.confirmed, "t1", "m"⟩
    [⟨"r1", "alice", 10, 40, RStatus.confirmed, "t1", "m"⟩] []
    (by decide) (by decide)
  ⟨h.1 [] 9 1000 0 "bob" 50 90 RStatus.pending "other" "r2" "h2", h.2.2⟩

end Core

namespace Api

/-- C10: `CreateBookingWithTimeValidation` accepts a body only if its parsed
`startTime` is strictly later than the clock instant at validation, and
rejects every body whose `startTime` is at or before the clock instant, while
`RescheduleBookingSchema` imposes no future-start requirement: it accepts any
interval with `endTime > startTime` no matter how the start relates to any
clock instant. -/
theorem future_start_validation :
    (∀ (b : CreateBody) (now : Int),
        createBookingWithTimeValidationOk b now = true → now < b.startTime) ∧
    (∀ (b : CreateBody) (now : Int),
        b.startTime ≤ now → createBookingWithTimeValidationOk b now = false) ∧
    (∀ (s e now : Int), s < e → s ≤ now → rescheduleBookingSchemaOk s e = true) := by
  refine ⟨?_, ?_, ?_⟩
  · intro b now h
    simp only [createBookingWithTimeValidationOk, createBookingSchemaOk,
      Bool.and_eq_true, decide_eq_true_eq] at h
    exact h.1.2
  · intro b now h
    have hd : decide (b.startTime > now) = false := by
      simp only [decide_eq_false_iff_not]
      omega
    simp [createBookingWithTimeValidationOk, createBookingSchemaOk, hd]
  · intro s e _now hse _hpast
    simp only [rescheduleBookingSchemaOk, decide_eq_true_eq]
    exact hse

/-- Witness for C10: a body with start 5 accepted at clock 0 indeed has a
future start, the same body is rejected at clock 7, and a reschedule to the
past interval `[1, 2)` at clock 5 passes the reschedule schema. -/
theorem future_start_validation_witness :
    ((0 : Int) < 5) ∧
    createBookingWithTimeValidationOk ⟨"u", 5, 10, "m", true⟩ 7 = false ∧
    rescheduleBookingSchemaOk 1 2 = true :=
  ⟨future_start_validation.1 ⟨"u", 5, 10, "m", true⟩ 0 (by decide),
   future_start_validation.2.1 ⟨"u", 5, 10, "m", true⟩ 7 (by decide),
   future_start_validation.2.2 1 2 5 (by decide) (by decide)⟩

/-- Every reservation in the store has a non-empty half-open interval. -/
def intervalsWF (store : List Core.Reservation) : Prop :=
  ∀ r ∈ store, r.startTime < r.endTime

end Api

namespace Api

/-- C8 (amended): through the Fastify API, every create or reschedule request
whose `endTime` is not strictly after its `startTime` is rejected by Zod
validation with 400 before the service is called, changing nothing; and on a
store whose reservations all satisfy `startTime < endTime`, every reservation
either handler accepts satisfies `startTime < endTime` and the property is
preserved.  The Cloudflare Workers variant of the create endpoint, however,
checks only that the fields are present: on an empty store it accepts any
interval, including one with `endTime ≤ startTime`, and stores it. -/
theorem accepted_intervals_nonempty :
    (∀ (now : Int) (b : CreateBody) (header : Option String) (fresh : String)
        (store : List Core.Reservation) (locks : Core.LockState)
        (clock ttl retries : Nat) (rid holderTok : String),
        b.endTime ≤ b.startTime →
        postBookings now b header fresh store locks clock ttl retries rid holderTok
          = (HResp.badRequest, store, locks)) ∧
    (∀ (now : Int) (b : CreateBody) (header : Option String) (fresh : String)
        (store : List Core.Reservation) (locks : Core.LockState)
        (clock ttl retries : Nat) (rid holderTok : String)
        (r : Core.Reservation) (store₁ : List Core.Reservation) (locks₁ : Core.LockState),
        intervalsWF store →
        postBookings now b header fresh store locks clock ttl retries rid holderTok
          = (HResp.ok r, store₁, locks₁) →
        r.startTime < r.endTime ∧ intervalsWF store₁) ∧
    (∀ (s e : Int) (id actorId : String) (store : List Core.Reservation) (lockFree : Bool),
        e ≤ s →
        postReschedule s e id actorId store lockFree = (HResp.badRequest, store)) ∧
    (∀ (s e : Int) (id actorId : String) (store : List Core.Reservation) (lockFree : Bool)
        (r : Core.Reservation) (store₁ : List Core.Reservation),
        intervalsWF store →
        postReschedule s e id actorId store lockFree = (HResp.ok r, store₁) →
        r.startTime < r.endTime ∧ intervalsWF store₁) ∧
    (∀ (s e : Int) (metadata bookingId lockValue : String),
        ¬ s < e →
        Worker.createBooking ⟨[], none⟩ (some s) (some e) metadata bookingId lockValue
            true false false
          = (Worker.WResp.created bookingId s e,
             ⟨[⟨bookingId, s, e, "CONFIRMED", metadata⟩], none⟩)) := by
  refine ⟨?_, ?_, ?_, ?_, ?_⟩
  · intro now b header fresh store locks clock ttl retries rid holderTok hle
    have hd : decide (b.endTime > b.startTime) = false := by
      simp only [decide_eq_false_iff_not]
      omega
    simp [postBookings, createBookingWithTimeValidationOk, hd]
  · intro now b header fresh store locks clock ttl retries rid holderTok
      r store₁ locks₁ hwf hpost
    by_cases hv : createBookingWithTimeValidationOk b now = true
    · have hlt : b.startTime < b.endTime := by
        simp only [createBookingWithTimeValidationOk, Bool.and_eq_true,
          decide_eq_true_eq] at hv
        exact hv.2
      rw [postBookings, if_pos hv] at hpost
      simp only [] at hpost
      rcases hcr : Core.createReservation store locks clock ttl retries b.userId
          b.startTime b.endTime Core.RStatus.confirmed b.metadata
          (idempotencyKeyOf header fresh) rid holderTok with ⟨out, storeX, locksX⟩
      rw [hcr] at hpost
      cases out with
      | ok r₀ =>
        simp only [Prod.mk.injEq, HResp.ok.injEq] at hpost
        obtain ⟨hr, hs, hl⟩ := hpost
        subst hr
        subst hs
        -- analyse the service call that produced the reservation
        rcases hfind : Core.findByToken store (idempotencyKeyOf header fresh) with _ | rHit
        · rcases hacq : Core.acquireLease locks
              (Core.resourceKey b.userId b.startTime) holderTok ttl clock retries with
            ⟨res, locksAcq⟩
          cases res with
          | none => simp [Core.createReservation, hfind, hacq] at hcr
          | some hdl =>
            by_cases hov : Core.overlapExists store b.userId b.startTime b.endTime
            · simp [Core.createReservation, hfind, hacq, hov] at hcr
            · simp only [Core.createReservation, hfind, hacq, hov, Bool.false_eq_true,
                if_false, Prod.mk.injEq, Core.SOutcome.ok.injEq] at hcr
              obtain ⟨hr₀, hstore, _⟩ := hcr
              subst hr₀
              subst hstore
              refine ⟨hlt, ?_⟩
              intro x hx
              rcases List.mem_append.mp hx with hx₀ | hx₁
              · exact hwf x hx₀
              · rcases List.mem_singleton.mp hx₁ with rfl
                exact hlt
        · have hmem : rHit ∈ store := List.mem_of_find?_eq_some hfind
          simp only [Core.createReservation, hfind, Prod.mk.injEq,
            Core.SOutcome.ok.injEq] at hcr
          obtain ⟨hr₀, hstore, _⟩ := hcr
          subst hr₀
          subst hstore
          exact ⟨hwf _ hmem, hwf⟩
      | lockConflict => simp at hpost
      | overlapConflict => simp at hpost
    · rw [postBookings, if_neg hv] at hpost
      simp at hpost
  · intro s e id actorId store lockFree hle
    have hd : decide (e > s) = false := by
      simp only [decide_eq_false_iff_not]
      omega
    simp [postReschedule, rescheduleBookingSchemaOk, hd]
  · intro s e id actorId store lockFree r store₁ hwf hpost
    by_cases hv : rescheduleBookingSchemaOk s e = true
    · have hlt : s < e := by
        simp only [rescheduleBookingSchemaOk, decide_eq_true_eq] at hv
        exact hv
      rw [postReschedule, if_pos hv] at hpost
      rcases hrs : Core.rescheduleReservation store lockFree id actorId s e with
        ⟨out, storeX⟩
      rw [hrs] at hpost
      cases out with
      | ok r₀ =>
        simp only [Prod.mk.injEq, HResp.ok.injEq] at hpost
        obtain ⟨hr, hs⟩ := hpost
        subst hr
        subst hs
        cases hlf : lockFree with
        | false => simp [Core.rescheduleReservation, hlf] at hrs
        | true =>
          rcases hfind : store.find? (fun x => x.id == id) with _ | rOld
          · simp [Core.rescheduleReservation, hlf, hfind] at hrs
          · by_cases hauth : (rOld.ownerId != actorId) = true
            · simp [Core.rescheduleReservation, hlf, hfind, hauth] at hrs
            · by_cases hov : Core.overlapExistsExcl store rOld.id rOld.ownerId s e = true
              · simp [Core.rescheduleReservation, hlf, hfind, hauth, hov] at hrs
              · simp only [Core.rescheduleReservation, hlf, hfind, hauth, hov,
                  Bool.not_true, if_false, Bool.false_eq_true, if_true,
                  Prod.mk.injEq, Core.ROutcome.ok.injEq] at hrs
                obtain ⟨hr₀, hstore⟩ := hrs
                subst hr₀
                subst hstore
                refine ⟨hlt, ?_⟩
                intro x hx
                rcases List.mem_map.mp hx with ⟨x₀, hx₀, hmap⟩
                by_cases hid : (x₀.id == id) = true
                · rw [← hmap]
                  simp only [hid, if_true]
                  exact hlt
                · rw [← hmap]
                  simp only [hid, Bool.false_eq_true, if_false]
                  exact hwf x₀ hx₀
      | lockConflict => simp at hpost
      | notFound => simp at hpost
      | unauthorized => simp at hpost
      | slotConflict => simp at hpost
    · rw [postReschedule, if_neg hv] at hpost
      simp at hpost
  · intro s e metadata bookingId lockValue _hse
    simp [Worker.createBooking, Worker.sqlOverlapExists]

/-- Witness for C8 (amended): a create body with interval `[10, 5)` is
rejected at the Fastify API with 400 and an untouched store; a reschedule to
`[10, 5)` likewise; a well-formed accepted create yields a reservation with
`startTime < endTime`; and the Workers endpoint accepts the inverted interval
`[630, 600)` on an empty store. -/
theorem accepted_intervals_nonempty_witness :
    postBookings 0 ⟨"u", 10, 5, "m", true⟩ none "k1" [] [] 0 5000 3 "r1" "h1"
        = (HResp.badRequest, [], []) ∧
    postReschedule 10 5 "r1" "u" [] true = (HResp.badRequest, []) ∧
    Worker.createBooking ⟨[], none⟩ (some 630) (some 600) "m" "b1" "v1" true false false
        = (Worker.WResp.created "b1" 630 600,
           ⟨[⟨"b1", 630, 600, "CONFIRMED", "m"⟩], none⟩) :=
  ⟨accepted_intervals_nonempty.1 0 ⟨"u", 10, 5, "m", true⟩ none "k1" [] [] 0 5000 3
      "r1" "h1" (by decide),
   accepted_intervals_nonempty.2.2.1 10 5 "r1" "u" [] true (by decide),
   accepted_intervals_nonempty.2.2.2.2 630 600 "m" "b1" "v1" (by decide)⟩

end Api

namespace Worker

/-- Counterexample to C8 as stated: the Workers deployment's public create
endpoint (`POST /api/bookings` of worker.ts) accepts a request whose
`endTime` (600) is not strictly after its `startTime` (630) — the only
validation at worker.ts lines 70-74 is field presence — and creates the
reservation instead of rejecting it. -/
theorem inverted_interval_accepted :
    ((600 : Int) ≤ 630) ∧
    createBooking ⟨[], none⟩ (some 630) (some 600) "m" "b1" "v1" true false false
      = (WResp.created "b1" 630 600,
         ⟨[⟨"b1", 630, 600, "CONFIRMED", "m"⟩], none⟩) := by
  decide

end Worker

namespace Api

/-- C9 (amended): the `POST /api/bookings` handler uses the
`X-Idempotency-Key` header as the idempotency key when it is supplied and
non-empty, and otherwise a freshly generated UUID, so two identical create
requests that both omit the header are never deduplicated against each
other: with distinct generated keys the first call creates its reservation
and the second is processed as a fresh operation that is rejected by the
overlap check — it neither returns the first call's reservation nor creates
a duplicate; idempotency deduplication can only relate requests that supply
the header.  The two-call scenario assumes the first call can succeed: a
validating body, keys fresh for the store, no overlapping reservation and a
free lease key. -/
theorem no_dedup_without_header :
    (∀ fresh, idempotencyKeyOf none fresh = fresh) ∧
    (∀ fresh, idempotencyKeyOf (some "") fresh = fresh) ∧
    (∀ k fresh, k ≠ "" → idempotencyKeyOf (some k) fresh = k) ∧
    (∀ (now : Int) (b : CreateBody) (store : List Core.Reservation)
        (locks : Core.LockState) (clock ttl retries clock₂ ttl₂ retries₂ : Nat)
        (u₁ u₂ rid₁ rid₂ holderTok₁ holderTok₂ : String),
        createBookingWithTimeValidationOk b now = true →
        u₁ ≠ u₂ →
        (∀ x ∈ store, x.idempotencyToken ≠ u₁) →
        (∀ x ∈ store, x.idempotencyToken ≠ u₂) →
        Core.overlapExists store b.userId b.startTime b.endTime = false →
        Core.lookupLease locks (Core.resourceKey b.userId b.startTime) = none →
        postBookings now b none u₁ store locks clock ttl retries rid₁ holderTok₁
            = (HResp.ok ⟨rid₁, b.userId, b.startTime, b.endTime,
                 Core.RStatus.confirmed, u₁, b.metadata⟩,
               store ++ [⟨rid₁, b.userId, b.startTime, b.endTime,
                 Core.RStatus.confirmed, u₁, b.metadata⟩],
               Core.removeLease locks (Core.resourceKey b.userId b.startTime)) ∧
        postBookings now b none u₂
            (store ++ [⟨rid₁, b.userId, b.startTime, b.endTime,
               Core.RStatus.confirmed, u₁, b.metadata⟩])
            (Core.removeLease locks (Core.resourceKey b.userId b.startTime))
            clock₂ ttl₂ retries₂ rid₂ holderTok₂
          = (HResp.conflict,
             store ++ [⟨rid₁, b.userId, b.startTime, b.endTime,
               Core.RStatus.confirmed, u₁, b.metadata⟩],
             Core.removeLease locks (Core.resourceKey b.userId b.startTime))) := by
  refine ⟨fun fresh => rfl, fun fresh => rfl, ?_, ?_⟩
  · intro k fresh hk
    simp [idempotencyKeyOf, hk]
  · intro now b store locks clock ttl retries clock₂ ttl₂ retries₂
      u₁ u₂ rid₁ rid₂ holderTok₁ holderTok₂ hval hne hfresh₁ hfresh₂ hov hlock
    have hcd : b.startTime < b.endTime := by
      simp only [createBookingWithTimeValidationOk, createBookingSchemaOk,
        Bool.and_eq_true, decide_eq_true_eq] at hval
      exact hval.2
    have hmiss₁ : Core.findByToken store u₁ = none :=
      Core.findByToken_eq_none store u₁ hfresh₁
    have hacq₁ := Core.acquireLease_free locks (Core.resourceKey b.userId b.startTime)
      holderTok₁ ttl clock retries hlock
    have hfirst : postBookings now b none u₁ store locks clock ttl retries rid₁ holderTok₁
        = (HResp.ok ⟨rid₁, b.userId, b.startTime, b.endTime,
             Core.RStatus.confirmed, u₁, b.metadata⟩,
           store ++ [⟨rid₁, b.userId, b.startTime, b.endTime,
             Core.RStatus.confirmed, u₁, b.metadata⟩],
           Core.removeLease locks (Core.resourceKey b.userId b.startTime)) := by
      simp [postBookings, hval, idempotencyKeyOf, Core.createReservation,
        hmiss₁, hacq₁, hov, Core.releaseLease_setLease]
    refine ⟨hfirst, ?_⟩
    have hmiss₂ : Core.findByToken
        (store ++ [(⟨rid₁, b.userId, b.startTime, b.endTime,
           Core.RStatus.confirmed, u₁, b.metadata⟩ : Core.Reservation)]) u₂ = none := by
      apply Core.findByToken_eq_none
      intro x hx
      rcases List.mem_append.mp hx with hx₀ | hx₁
      · exact hfresh₂ x hx₀
      · rcases List.mem_singleton.mp hx₁ with rfl
        exact hne
    have hacq₂ := Core.acquireLease_free
      (Core.removeLease locks (Core.resourceKey b.userId b.startTime))
      (Core.resourceKey b.userId b.startTime) holderTok₂ ttl₂ clock₂ retries₂
      (Core.lookupLease_removeLease locks (Core.resourceKey b.userId b.startTime))
    have hov₂ : Core.overlapExists
        (store ++ [(⟨rid₁, b.userId, b.startTime, b.endTime,
           Core.RStatus.confirmed, u₁, b.metadata⟩ : Core.Reservation)])
        b.userId b.startTime b.endTime = true := by
      simp only [Core.overlapExists, List.any_append, Bool.or_eq_true]
      refine Or.inr ?_
      simp [Core.Reservation.isLive, BookingSpec.singleOverlap, hcd]
    simp [postBookings, hval, idempotencyKeyOf, Core.createReservation,
      hmiss₂, hacq₂, hov₂, Core.releaseLease_setLease, Core.removeLease_removeLease]

/-- Witness for C9 (amended): concrete two-call run — the first header-less
request creates its reservation, the second identical one is rejected with a
conflict on an unchanged store. -/
theorem no_dedup_without_header_witness :
    postBookings 0 ⟨"u", 10, 40, "m", true⟩ none "k1" [] [] 0 5000 3 "r1" "h1"
        = (HResp.ok ⟨"r1", "u", 10, 40, Core.RStatus.confirmed, "k1", "m"⟩,
           [⟨"r1", "u", 10, 40, Core.RStatus.confirmed, "k1", "m"⟩],
           Core.removeLease [] (Core.resourceKey "u" 10)) ∧
    postBookings 0 ⟨"u", 10, 40, "m", true⟩ none "k2"
        ([] ++ [⟨"r1", "u", 10, 40, Core.RStatus.confirmed, "k1", "m"⟩])
        (Core.removeLease [] (Core.resourceKey "u" 10)) 0 5000 3 "r2" "h2"
      = (HResp.conflict,
         [] ++ [⟨"r1", "u", 10, 40, Core.RStatus.confirmed, "k1", "m"⟩],
         Core.removeLease [] (Core.resourceKey "u" 10)) := by
  have h := no_dedup_without_header.2.2.2 0 ⟨"u", 10, 40, "m", true⟩ [] [] 0 5000 3
    0 5000 3 "k1" "k2" "r1" "r2" "h1" "h2" (by decide) (by decide)
    (by intro x hx; cases hx) (by intro x hx; cases hx) (by decide) (by decide)
  exact ⟨by simpa using h.1, by simpa using h.2⟩

end Api

namespace Api

/-- Counterexample to C9 as stated: two otherwise identical create requests
that both omit the `X-Idempotency-Key` header (fresh generated keys `k1` and
`k2`) do not each create a reservation: the first creates, but the second is
rejected by the overlap check with a conflict — it neither creates nor
returns the first reservation. -/
theorem second_headerless_request_conflicts :
    (postBookings 0 ⟨"u", 10, 40, "m", true⟩ none "k1" [] [] 0 5000 3 "r1" "h1").1
        = HResp.ok ⟨"r1", "u", 10, 40, Core.RStatus.confirmed, "k1", "m"⟩ ∧
    (postBookings 0 ⟨"u", 10, 40, "m", true⟩ none "k2"
        (postBookings 0 ⟨"u", 10, 40, "m", true⟩ none "k1" [] [] 0 5000 3 "r1" "h1").2.1
        (postBookings 0 ⟨"u", 10, 40, "m", true⟩ none "k1" [] [] 0 5000 3 "r1" "h1").2.2
        0 5000 3 "r2" "h2").1
      = HResp.conflict := by
  decide

end Api

namespace ConcurrentCreate

/-! ## N concurrent `createReservation` calls on one owner and interval

Modelled from the spec: sections 4.3 and 5 describe each create request as a
sequence of steps — idempotency-ledger check, lease acquisition on the
resource key derived from owner and interval start, the atomic transactional
step (overlap re-check plus insert), lease release — executed by arbitrarily
many request handlers in parallel, where each numbered step is an atomic
operation against the shared stores and the interleaving across requests is
arbitrary.  Since all requests here target the same owner and interval they
contend on one resource key, so the lease is a single cell holding the index
of the current holder.  Lease expiry is not modelled: every request releases
within its critical section, and the spec makes TTL expiry relevant only to
crashed holders (section 5).  A schedule is a list of request indices; each
occurrence lets that request perform its next pending atomic step. -/

/-- Outcome of one of the concurrent create requests. -/
inductive COutcome
  | success
  | lockConflict
  | overlapConflict
deriving DecidableEq

/-- Progress of a single request: not started; idempotency check done (miss);
holding the lease; transactional step done (`inserted` tells whether the
insert happened or the overlap re-check aborted); finished with an outcome. -/
inductive Phase
  | start
  | checked
  | inCS
  | txnDone (inserted : Bool)
  | done (outcome : COutcome)
deriving DecidableEq

/-- Whether a phase is terminal. -/
def Phase.isDone : Phase → Bool
  | Phase.done _ => true
  | _ => false

/-- Per-request data: the client-supplied idempotency token, the fresh
reservation id, and the opaque metadata. -/
structure CreateReq where
  tok : String
  rid : String
  meta : String

/-- The shared state: the reservation store, the lease cell for the common
resource key (holding the index of the current holder), and each request's
phase. -/
structure Sys (n : Nat) where
  store : List Core.Reservation
  lock : Option (Fin n)
  phase : Fin n → Phase

/-- The reservation request `q` would insert for owner `o` and interval
`[c, d)` (created directly `CONFIRMED`, the spec default). -/
def resvOf (o : String) (c d : Int) (q : CreateReq) : Core.Reservation :=
  ⟨q.rid, o, c, d, Core.RStatus.confirmed, q.tok, q.meta⟩

/-- Matching rows for the claim's final-store count: same owner, same
interval. -/
def matchB (o : String) (c d : Int) (r : Core.Reservation) : Bool :=
  (r.ownerId == o) && (r.startTime == c) && (r.endTime == d)

/-- One atomic step of request `k` (spec section 4.3): from `start`, the
idempotency-ledger lookup (a hit finishes the request successfully with the
found reservation, a miss advances); from `checked`, the lease acquisition
(set-if-absent on the shared cell, failing fast with `lockConflict` when
held); from `inCS`, the atomic transactional step — overlap re-check and, if
free, the insert; from `txnDone`, the compare-and-delete lease release and
the final outcome.  Finished requests do nothing. -/
def step {n : Nat} (o : String) (c d : Int) (reqs : Fin n → CreateReq)
    (S : Sys n) (k : Fin n) : Sys n :=
  match S.phase k with
  | Phase.start =>
    match Core.findByToken S.store (reqs k).tok with
    | some _ => { S with phase := Function.update S.phase k (Phase.done COutcome.success) }
    | none => { S with phase := Function.update S.phase k Phase.checked }
  | Phase.checked =>
    match S.lock with
    | none => { S with lock := some k, phase := Function.update S.phase k Phase.inCS }
    | some _ =>
      { S with phase := Function.update S.phase k (Phase.done COutcome.lockConflict) }
  | Phase.inCS =>
    if Core.overlapExists S.store o c d then
      { S with phase := Function.update S.phase k (Phase.txnDone false) }
    else
      { S with store := S.store ++ [resvOf o c d (reqs k)],
               phase := Function.update S.phase k (Phase.txnDone true) }
  | Phase.txnDone b =>
    { S with lock := if S.lock = some k then none else S.lock,
             phase := Function.update S.phase k
               (Phase.done (if b then COutcome.success else COutcome.overlapConflict)) }
  | Phase.done _ => S

/-- Run a schedule: each entry lets that request take its next atomic step. -/
def run {n : Nat} (o : String) (c d : Int) (reqs : Fin n → CreateReq) :
    Sys n → List (Fin n) → Sys n
  | S, [] => S
  | S, k :: rest => run o c d reqs (step o c d reqs S k) rest

/-- The initial state: the pre-existing store, a free lease, no request
started. -/
def init (n : Nat) (s0 : List Core.Reservation) : Sys n :=
  ⟨s0, none, fun _ => Phase.start⟩

/-- Request `i` has (already) inserted its reservation. -/
abbrev ins {n : Nat} (S : Sys n) (i : Fin n) : Prop :=
  S.phase i = Phase.txnDone true ∨ S.phase i = Phase.done COutcome.success

/-- Request `i` is inside the lease-protected section (holding the lease). -/
abbrev holdsCS {n : Nat} (S : Sys n) (i : Fin n) : Prop :=
  S.phase i = Phase.inCS ∨ S.phase i = Phase.txnDone true ∨
    S.phase i = Phase.txnDone false

/-- The inductive invariant of the concurrent create system. -/
structure Inv {n : Nat} (o : String) (c d : Int) (s0 : List Core.Reservation)
    (reqs : Fin n → CreateReq) (S : Sys n) : Prop where
  store_src : ∀ r ∈ S.store, r ∈ s0 ∨ ∃ i, r = resvOf o c d (reqs i) ∧ ins S i
  ins_store : ∀ i, ins S i → resvOf o c d (reqs i) ∈ S.store
  ins_unique : ∀ i j, ins S i → ins S j → i = j
  lock_cs : ∀ i, S.lock = some i ↔ holdsCS S i
  lc_witness : (∃ i, S.phase i = Phase.done COutcome.lockConflict) →
    ∃ j, holdsCS S j ∨ S.phase j = Phase.done COutcome.success ∨
      S.phase j = Phase.done COutcome.overlapConflict
  oc_witness : (∃ i, S.phase i = Phase.done COutcome.overlapConflict ∨
      S.phase i = Phase.txnDone false) → ∃ j, ins S j
  filter_one : ∀ i, ins S i →
    S.store.filter (matchB o c d) = [resvOf o c d (reqs i)]

end ConcurrentCreate

namespace ConcurrentCreate

/-- The reservation a request inserts matches the target owner and interval. -/
theorem matchB_resvOf (o : String) (c d : Int) (q : CreateReq) :
    matchB o c d (resvOf o c d q) = true := by
  simp [matchB, resvOf]

/-- A phase is terminal exactly when it carries an outcome. -/
theorem isDone_iff (p : Phase) :
    p.isDone = true ↔ ∃ oc, p = Phase.done oc := by
  cases p <;> simp [Phase.isDone]

/-- Once a request has inserted, the target interval overlaps in the store. -/
theorem ins_overlap {n : Nat} {o : String} {c d : Int}
    {s0 : List Core.Reservation} {reqs : Fin n → CreateReq} {S : Sys n}
    (hcd : c < d) (I : Inv o c d s0 reqs S) {i : Fin n} (hi : ins S i) :
    Core.overlapExists S.store o c d = true := by
  have hmem := I.ins_store i hi
  rw [Core.overlapExists, List.any_eq_true]
  refine ⟨resvOf o c d (reqs i), hmem, ?_⟩
  simp [resvOf, Core.Reservation.isLive, BookingSpec.singleOverlap, hcd]

/-- If the target interval overlaps in the store, some request inserted. -/
theorem overlap_ins {n : Nat} {o : String} {c d : Int}
    {s0 : List Core.Reservation} {reqs : Fin n → CreateReq} {S : Sys n}
    (hov : Core.overlapExists s0 o c d = false) (I : Inv o c d s0 reqs S)
    (h : Core.overlapExists S.store o c d = true) : ∃ i, ins S i := by
  rw [Core.overlapExists, List.any_eq_true] at h
  obtain ⟨r, hr, hp⟩ := h
  rcases I.store_src r hr with h0 | ⟨i, rfl, hi⟩
  · exfalso
    have hov' : Core.overlapExists s0 o c d = true := by
      rw [Core.overlapExists, List.any_eq_true]
      exact ⟨r, h0, hp⟩
    rw [hov'] at hov
    cases hov
  · exact ⟨i, hi⟩

/-- While no request has inserted, the store has no matching row. -/
theorem filter_nil_of_no_ins {n : Nat} {o : String} {c d : Int}
    {s0 : List Core.Reservation} {reqs : Fin n → CreateReq} {S : Sys n}
    (hmatch : ∀ r ∈ s0, matchB o c d r = false) (I : Inv o c d s0 reqs S)
    (hnone : ∀ i, ¬ ins S i) :
    S.store.filter (matchB o c d) = [] := by
  rw [List.filter_eq_nil_iff]
  intro r hr
  rcases I.store_src r hr with h0 | ⟨i, rfl, hi⟩
  · simp [hmatch r h0]
  · exact absurd hi (hnone i)

/-- A request that has not started yet cannot hit the idempotency ledger:
its token is fresh for the initial store and distinct from the other
requests' tokens, and its own insert has not happened. -/
theorem no_hit {n : Nat} {o : String} {c d : Int}
    {s0 : List Core.Reservation} {reqs : Fin n → CreateReq} {S : Sys n}
    (hinj : ∀ i j, (reqs i).tok = (reqs j).tok → i = j)
    (hfresh : ∀ i, ∀ r ∈ s0, r.idempotencyToken ≠ (reqs i).tok)
    (I : Inv o c d s0 reqs S) (k : Fin n) (hk : S.phase k = Phase.start) :
    Core.findByToken S.store (reqs k).tok = none := by
  apply Core.findByToken_eq_none
  intro r hr heq
  rcases I.store_src r hr with h0 | ⟨j, rfl, hj⟩
  · exact hfresh k r h0 heq
  · have hjk : j = k := hinj j k heq
    subst hjk
    rcases hj with hj | hj <;> rw [hk] at hj <;> simp at hj

/-- Preservation of the invariant by a `start` step: the idempotency-ledger
lookup misses (a hit is impossible for fresh, pairwise-distinct tokens) and
only the acting request's phase advances to `checked`. -/
theorem inv_step_start {n : Nat} {o : String} {c d : Int}
    {s0 : List Core.Reservation} {reqs : Fin n → CreateReq}
    (hinj : ∀ i j, (reqs i).tok = (reqs j).tok → i = j)
    (hfresh : ∀ i, ∀ r ∈ s0, r.idempotencyToken ≠ (reqs i).tok)
    {S : Sys n} (I : Inv o c d s0 reqs S) (k : Fin n)
    (hph : S.phase k = Phase.start) :
    Inv o c d s0 reqs (step o c d reqs S k) := by
  have hfind := no_hit hinj hfresh I k hph
  have hstep : step o c d reqs S k
      = { S with phase := Function.update S.phase k Phase.checked } := by
    simp only [step, hph, hfind]
  rw [hstep]
  have hup : ∀ i, (Function.update S.phase k Phase.checked) i
      = if i = k then Phase.checked else S.phase i :=
    fun i => Function.update_apply S.phase k Phase.checked i
  have hio : ∀ i,
      ins ({ S with phase := Function.update S.phase k Phase.checked } : Sys n) i
        ↔ ins S i := by
    intro i
    by_cases hik : i = k
    · subst hik
      simp [ins, hup, hph]
    · simp [ins, hup, hik]
  have hco : ∀ i,
      holdsCS ({ S with phase := Function.update S.phase k Phase.checked } : Sys n) i
        ↔ holdsCS S i := by
    intro i
    by_cases hik : i = k
    · subst hik
      simp [holdsCS, hup, hph]
    · simp [holdsCS, hup, hik]
  refine ⟨?_, ?_, ?_, ?_, ?_, ?_, ?_⟩
  · intro r hr
    rcases I.store_src r hr with h0 | ⟨i, hre, hi⟩
    · exact Or.inl h0
    · exact Or.inr ⟨i, hre, (hio i).mpr hi⟩
  · intro i hi
    exact I.ins_store i ((hio i).mp hi)
  · intro i j hi hj
    exact I.ins_unique i j ((hio i).mp hi) ((hio j).mp hj)
  · intro i
    exact (I.lock_cs i).trans (hco i).symm
  · rintro ⟨i, hi⟩
    simp only [hup] at hi
    have hi' : S.phase i = Phase.done COutcome.lockConflict := by
      by_cases hik : i = k
      · simp [hik] at hi
      · simpa [hik] using hi
    obtain ⟨j, hj⟩ := I.lc_witness ⟨i, hi'⟩
    have hjk : j ≠ k := by
      intro h
      subst h
      rcases hj with (hj | hj | hj) | hj | hj <;> rw [hph] at hj <;> simp at hj
    refine ⟨j, ?_⟩
    rcases hj with (hj | hj | hj) | hj | hj
    · exact Or.inl (Or.inl (by simp [hup, hjk, hj]))
    · exact Or.inl (Or.inr (Or.inl (by simp [hup, hjk, hj])))
    · exact Or.inl (Or.inr (Or.inr (by simp [hup, hjk, hj])))
    · exact Or.inr (Or.inl (by simp [hup, hjk, hj]))
    · exact Or.inr (Or.inr (by simp [hup, hjk, hj]))
  · rintro ⟨i, hi⟩
    simp only [hup] at hi
    have hi' : S.phase i = Phase.done COutcome.overlapConflict
        ∨ S.phase i = Phase.txnDone false := by
      by_cases hik : i = k
      · simp [hik] at hi
      · simpa [hik] using hi
    obtain ⟨j, hj⟩ := I.oc_witness ⟨i, hi'⟩
    exact ⟨j, (hio j).mpr hj⟩
  · intro i hi
    exact I.filter_one i ((hio i).mp hi)

/-- Preservation of the invariant by a `checked` step: the lease cell is
either free — the request installs itself as holder and enters the critical
section — or held, and the request finishes with `lockConflict`. -/
theorem inv_step_checked {n : Nat} {o : String} {c d : Int}
    {s0 : List Core.Reservation} {reqs : Fin n → CreateReq}
    {S : Sys n} (I : Inv o c d s0 reqs S) (k : Fin n)
    (hph : S.phase k = Phase.checked) :
    Inv o c d s0 reqs (step o c d reqs S k) := by
  rcases hlk : S.lock with _ | j₀
  · -- free lease: k acquires and enters the critical section
    have hstep : step o c d reqs S k
        = { S with lock := some k, phase := Function.update S.phase k Phase.inCS } := by
      simp only [step, hph, hlk]
    rw [hstep]
    have hup : ∀ i, (Function.update S.phase k Phase.inCS) i
        = if i = k then Phase.inCS else S.phase i :=
      fun i => Function.update_apply S.phase k Phase.inCS i
    have hio : ∀ i,
        ins ({ S with lock := some k, phase := Function.update S.phase k Phase.inCS } : Sys n) i ↔ ins S i := by
      intro i
      by_cases hik : i = k
      · subst hik
        simp [ins, hup, hph]
      · simp [ins, hup, hik]
    have hnocs : ∀ i, ¬ holdsCS S i := by
      intro i hi
      have := (I.lock_cs i).mpr hi
      rw [hlk] at this
      cases this
    refine ⟨?_, ?_, ?_, ?_, ?_, ?_, ?_⟩
    · intro r hr
      rcases I.store_src r hr with h0 | ⟨i, hre, hi⟩
      · exact Or.inl h0
      · exact Or.inr ⟨i, hre, (hio i).mpr hi⟩
    · intro i hi
      exact I.ins_store i ((hio i).mp hi)
    · intro i j hi hj
      exact I.ins_unique i j ((hio i).mp hi) ((hio j).mp hj)
    · intro i
      by_cases hik : i = k
      · subst hik
        constructor
        · intro _
          exact Or.inl (by simp [hup])
        · intro _
          rfl
      · constructor
        · intro h
          exact absurd h (by simp [Option.some.injEq]; exact fun hcontra => hik hcontra.symm)
        · intro h
          exfalso
          apply hnocs i
          rcases h with h | h | h
          · exact Or.inl (by simpa [hup, hik] using h)
          · exact Or.inr (Or.inl (by simpa [hup, hik] using h))
          · exact Or.inr (Or.inr (by simpa [hup, hik] using h))
    · rintro ⟨i, hi⟩
      simp only [hup] at hi
      have hi' : S.phase i = Phase.done COutcome.lockConflict := by
        by_cases hik : i = k
        · simp [hik] at hi
        · simpa [hik] using hi
      obtain ⟨j, hj⟩ := I.lc_witness ⟨i, hi'⟩
      have hjk : j ≠ k := by
        intro h
        subst h
        rcases hj with (hj | hj | hj) | hj | hj <;> rw [hph] at hj <;> simp at hj
      refine ⟨j, ?_⟩
      rcases hj with (hj | hj | hj) | hj | hj
      · exact Or.inl (Or.inl (by simp [hup, hjk, hj]))
      · exact Or.inl (Or.inr (Or.inl (by simp [hup, hjk, hj])))
      · exact Or.inl (Or.inr (Or.inr (by simp [hup, hjk, hj])))
      · exact Or.inr (Or.inl (by simp [hup, hjk, hj]))
      · exact Or.inr (Or.inr (by simp [hup, hjk, hj]))
    · rintro ⟨i, hi⟩
      simp only [hup] at hi
      have hi' : S.phase i = Phase.done COutcome.overlapConflict
          ∨ S.phase i = Phase.txnDone false := by
        by_cases hik : i = k
        · simp [hik] at hi
        · simpa [hik] using hi
      obtain ⟨j, hj⟩ := I.oc_witness ⟨i, hi'⟩
      exact ⟨j, (hio j).mpr hj⟩
    · intro i hi
      exact I.filter_one i ((hio i).mp hi)
  · -- held lease: k fails fast with lockConflict
    have hstep : step o c d reqs S k
        = { S with phase :=
            Function.update S.phase k (Phase.done COutcome.lockConflict) } := by
      simp only [step, hph, hlk]
    rw [hstep]
    have hup : ∀ i, (Function.update S.phase k (Phase.done COutcome.lockConflict)) i
        = if i = k then Phase.done COutcome.lockConflict else S.phase i :=
      fun i => Function.update_apply S.phase k (Phase.done COutcome.lockConflict) i
    have hio : ∀ i,
        ins ({ S with phase :=
            Function.update S.phase k (Phase.done COutcome.lockConflict) } : Sys n) i
          ↔ ins S i := by
      intro i
      by_cases hik : i = k
      · subst hik
        simp [ins, hup, hph]
      · simp [ins, hup, hik]
    have hco : ∀ i,
        holdsCS ({ S with phase :=
            Function.update S.phase k (Phase.done COutcome.lockConflict) } : Sys n) i
          ↔ holdsCS S i := by
      intro i
      by_cases hik : i = k
      · subst hik
        simp [holdsCS, hup, hph]
      · simp [holdsCS, hup, hik]
    have hcsj : holdsCS S j₀ := (I.lock_cs j₀).mp hlk
    have hjk : j₀ ≠ k := by
      intro h
      subst h
      rcases hcsj with hj | hj | hj <;> rw [hph] at hj <;> simp at hj
    refine ⟨?_, ?_, ?_, ?_, ?_, ?_, ?_⟩
    · intro r hr
      rcases I.store_src r hr with h0 | ⟨i, hre, hi⟩
      · exact Or.inl h0
      · exact Or.inr ⟨i, hre, (hio i).mpr hi⟩
    · intro i hi
      exact I.ins_store i ((hio i).mp hi)
    · intro i j hi hj
      exact I.ins_unique i j ((hio i).mp hi) ((hio j).mp hj)
    · intro i
      exact (I.lock_cs i).trans (hco i).symm
    · rintro ⟨i, _⟩
      refine ⟨j₀, Or.inl ?_⟩
      rcases hcsj with hj | hj | hj
      · exact Or.inl (by simp [hup, hjk, hj])
      · exact Or.inr (Or.inl (by simp [hup, hjk, hj]))
      · exact Or.inr (Or.inr (by simp [hup, hjk, hj]))
    · rintro ⟨i, hi⟩
      simp only [hup] at hi
      have hi' : S.phase i = Phase.done COutcome.overlapConflict
          ∨ S.phase i = Phase.txnDone false := by
        by_cases hik : i = k
        · simp [hik] at hi
        · simpa [hik] using hi
      obtain ⟨j, hj⟩ := I.oc_witness ⟨i, hi'⟩
      exact ⟨j, (hio j).mpr hj⟩
    · intro i hi
      exact I.filter_one i ((hio i).mp hi)

/-- Preservation of the invariant by the atomic transactional step: the
overlap re-check either finds a conflict (the request will report
`overlapConflict`) or the request inserts its reservation — and the re-check
guarantees no other request has inserted, keeping the success unique. -/
theorem inv_step_cs {n : Nat} {o : String} {c d : Int}
    {s0 : List Core.Reservation} {reqs : Fin n → CreateReq}
    (hcd : c < d)
    (hov : Core.overlapExists s0 o c d = false)
    (hmatch : ∀ r ∈ s0, matchB o c d r = false)
    {S : Sys n} (I : Inv o c d s0 reqs S) (k : Fin n)
    (hph : S.phase k = Phase.inCS) :
    Inv o c d s0 reqs (step o c d reqs S k) := by
  by_cases hovS : Core.overlapExists S.store o c d = true
  · -- conflict: k records the failed transactional step
    have hstep : step o c d reqs S k
        = { S with phase := Function.update S.phase k (Phase.txnDone false) } := by
      simp only [step, hph, hovS, if_true]
    rw [hstep]
    have hup : ∀ i, (Function.update S.phase k (Phase.txnDone false)) i
        = if i = k then Phase.txnDone false else S.phase i :=
      fun i => Function.update_apply S.phase k (Phase.txnDone false) i
    have hio : ∀ i,
        ins ({ S with phase := Function.update S.phase k (Phase.txnDone false) } : Sys n) i ↔ ins S i := by
      intro i
      by_cases hik : i = k
      · subst hik
        simp [ins, hup, hph]
      · simp [ins, hup, hik]
    have hco : ∀ i,
        holdsCS ({ S with phase := Function.update S.phase k (Phase.txnDone false) } : Sys n) i ↔ holdsCS S i := by
      intro i
      by_cases hik : i = k
      · subst hik
        simp [holdsCS, hup, hph]
      · simp [holdsCS, hup, hik]
    refine ⟨?_, ?_, ?_, ?_, ?_, ?_, ?_⟩
    · intro r hr
      rcases I.store_src r hr with h0 | ⟨i, hre, hi⟩
      · exact Or.inl h0
      · exact Or.inr ⟨i, hre, (hio i).mpr hi⟩
    · intro i hi
      exact I.ins_store i ((hio i).mp hi)
    · intro i j hi hj
      exact I.ins_unique i j ((hio i).mp hi) ((hio j).mp hj)
    · intro i
      exact (I.lock_cs i).trans (hco i).symm
    · rintro ⟨i, hi⟩
      simp only [hup] at hi
      have hi' : S.phase i = Phase.done COutcome.lockConflict := by
        by_cases hik : i = k
        · simp [hik] at hi
        · simpa [hik] using hi
      obtain ⟨j, hj⟩ := I.lc_witness ⟨i, hi'⟩
      refine ⟨j, ?_⟩
      rcases hj with hj | hj | hj
      · exact Or.inl ((hco j).mpr hj)
      · refine Or.inr (Or.inl ?_)
        have hjk : j ≠ k := by
          intro h
          subst h
          rw [hph] at hj
          simp at hj
        simp [hup, hjk, hj]
      · refine Or.inr (Or.inr ?_)
        have hjk : j ≠ k := by
          intro h
          subst h
          rw [hph] at hj
          simp at hj
        simp [hup, hjk, hj]
    · rintro ⟨i, _⟩
      obtain ⟨j, hj⟩ := overlap_ins hov I hovS
      exact ⟨j, (hio j).mpr hj⟩
    · intro i hi
      exact I.filter_one i ((hio i).mp hi)
  · -- no conflict: k inserts its reservation
    have hovS' : Core.overlapExists S.store o c d = false :=
      Bool.not_eq_true _ ▸ Bool.eq_false_iff.mpr (fun h => hovS h)
    have hnoins : ∀ j, ¬ ins S j := by
      intro j hj
      exact hovS (ins_overlap hcd I hj)
    have hstep : step o c d reqs S k
        = { S with store := S.store ++ [resvOf o c d (reqs k)],
                   phase := Function.update S.phase k (Phase.txnDone true) } := by
      simp only [step, hph, hovS', Bool.false_eq_true, if_false]
    rw [hstep]
    have hup : ∀ i, (Function.update S.phase k (Phase.txnDone true)) i
        = if i = k then Phase.txnDone true else S.phase i :=
      fun i => Function.update_apply S.phase k (Phase.txnDone true) i
    have hio : ∀ i,
        ins ({ S with store := S.store ++ [resvOf o c d (reqs k)], phase := Function.update S.phase k (Phase.txnDone true) } : Sys n) i ↔ i = k := by
      intro i
      by_cases hik : i = k
      · subst hik
        simp [ins, hup]
      · simp only [ins, hup, if_neg hik]
        constructor
        · intro h
          exact absurd h (hnoins i)
        · intro h
          exact absurd h hik
    have hco : ∀ i,
        holdsCS ({ S with store := S.store ++ [resvOf o c d (reqs k)], phase := Function.update S.phase k (Phase.txnDone true) } : Sys n) i ↔ holdsCS S i := by
      intro i
      by_cases hik : i = k
      · subst hik
        simp [holdsCS, hup, hph]
      · simp [holdsCS, hup, hik]
    refine ⟨?_, ?_, ?_, ?_, ?_, ?_, ?_⟩
    · intro r hr
      rcases List.mem_append.mp hr with h0 | h1
      · rcases I.store_src r h0 with h2 | ⟨i, _, hi⟩
        · exact Or.inl h2
        · exact absurd hi (hnoins i)
      · rcases List.mem_singleton.mp h1 with rfl
        exact Or.inr ⟨k, rfl, (hio k).mpr rfl⟩
    · intro i hi
      rcases (hio i).mp hi with rfl
      exact List.mem_append.mpr (Or.inr (List.mem_singleton.mpr rfl))
    · intro i j hi hj
      rw [(hio i).mp hi, (hio j).mp hj]
    · intro i
      by_cases hik : i = k
      · subst hik
        have hlkk : S.lock = some i := (I.lock_cs i).mpr (Or.inl hph)
        constructor
        · intro _
          exact Or.inr (Or.inl (by simp [hup]))
        · intro _
          exact hlkk
      · constructor
        · intro h
          have : holdsCS S i := (I.lock_cs i).mp h
          exact ((hco i).mpr this)
        · intro h
          exact (I.lock_cs i).mpr ((hco i).mp h)
    · rintro ⟨i, hi⟩
      simp only [hup] at hi
      have hi' : S.phase i = Phase.done COutcome.lockConflict := by
        by_cases hik : i = k
        · simp [hik] at hi
        · simpa [hik] using hi
      obtain ⟨j, hj⟩ := I.lc_witness ⟨i, hi'⟩
      refine ⟨j, ?_⟩
      rcases hj with hj | hj | hj
      · exact Or.inl ((hco j).mpr hj)
      · refine Or.inr (Or.inl ?_)
        have hjk : j ≠ k := by
          intro h
          subst h
          rw [hph] at hj
          simp at hj
        simp [hup, hjk, hj]
      · refine Or.inr (Or.inr ?_)
        have hjk : j ≠ k := by
          intro h
          subst h
          rw [hph] at hj
          simp at hj
        simp [hup, hjk, hj]
    · rintro ⟨i, _⟩
      exact ⟨k, (hio k).mpr rfl⟩
    · intro i hi
      rcases (hio i).mp hi with rfl
      have hnil : S.store.filter (matchB o c d) = [] :=
        filter_nil_of_no_ins hmatch I hnoins
      simp [List.filter_append, hnil, matchB_resvOf]

/-- Preservation of the invariant by the release step: the holder deletes its
lease (compare-and-delete always succeeds here, as the lease cell still names
it) and finishes with `success` or `overlapConflict` according to its
transactional step. -/
theorem inv_step_txn {n : Nat} {o : String} {c d : Int}
    {s0 : List Core.Reservation} {reqs : Fin n → CreateReq}
    {S : Sys n} (I : Inv o c d s0 reqs S) (k : Fin n) (b : Bool)
    (hph : S.phase k = Phase.txnDone b) :
    Inv o c d s0 reqs (step o c d reqs S k) := by
  have hlkk : S.lock = some k := by
    apply (I.lock_cs k).mpr
    cases b
    · exact Or.inr (Or.inr hph)
    · exact Or.inr (Or.inl hph)
  cases b
  · -- failed transactional step: finish with overlapConflict
    have hstep : step o c d reqs S k
        = { S with lock := none,
                   phase := Function.update S.phase k (Phase.done COutcome.overlapConflict) } := by
      simp [step, hph, hlkk]
    rw [hstep]
    have hup : ∀ i, (Function.update S.phase k (Phase.done COutcome.overlapConflict)) i
        = if i = k then Phase.done COutcome.overlapConflict else S.phase i :=
      fun i => Function.update_apply S.phase k (Phase.done COutcome.overlapConflict) i
    have hio : ∀ i,
        ins ({ S with lock := none, phase := Function.update S.phase k (Phase.done COutcome.overlapConflict) } : Sys n) i ↔ ins S i := by
      intro i
      by_cases hik : i = k
      · subst hik
        simp [ins, hup, hph]
      · simp [ins, hup, hik]
    refine ⟨?_, ?_, ?_, ?_, ?_, ?_, ?_⟩
    · intro r hr
      rcases I.store_src r hr with h0 | ⟨i, hre, hi⟩
      · exact Or.inl h0
      · exact Or.inr ⟨i, hre, (hio i).mpr hi⟩
    · intro i hi
      exact I.ins_store i ((hio i).mp hi)
    · intro i j hi hj
      exact I.ins_unique i j ((hio i).mp hi) ((hio j).mp hj)
    · intro i
      constructor
      · intro h
        simp at h
      · intro h
        exfalso
        by_cases hik : i = k
        · subst hik
          rcases h with h | h | h <;> simp [hup] at h
        · have hcs : holdsCS S i := by
            rcases h with h | h | h
            · exact Or.inl (by simpa [hup, hik] using h)
            · exact Or.inr (Or.inl (by simpa [hup, hik] using h))
            · exact Or.inr (Or.inr (by simpa [hup, hik] using h))
          have := (I.lock_cs i).mpr hcs
          rw [hlkk] at this
          exact hik (Option.some.inj this).symm
    · rintro ⟨i, hi⟩
      simp only [hup] at hi
      have hi' : S.phase i = Phase.done COutcome.lockConflict := by
        by_cases hik : i = k
        · simp [hik] at hi
        · simpa [hik] using hi
      obtain ⟨j, hj⟩ := I.lc_witness ⟨i, hi'⟩
      rcases hj with hj | hj | hj
      · have hj' := (I.lock_cs j).mpr hj
        rw [hlkk] at hj'
        have hjk : k = j := Option.some.inj hj'
        subst hjk
        exact ⟨k, Or.inr (Or.inr (by simp [hup]))⟩
      · have hjk : j ≠ k := by
          intro h
          subst h
          rw [hph] at hj
          simp at hj
        exact ⟨j, Or.inr (Or.inl (by simp [hup, hjk, hj]))⟩
      · have hjk : j ≠ k := by
          intro h
          subst h
          rw [hph] at hj
          simp at hj
        exact ⟨j, Or.inr (Or.inr (by simp [hup, hjk, hj]))⟩
    · rintro ⟨i, _⟩
      obtain ⟨j, hj⟩ := I.oc_witness ⟨k, Or.inr hph⟩
      exact ⟨j, (hio j).mpr hj⟩
    · intro i hi
      exact I.filter_one i ((hio i).mp hi)
  · -- successful transactional step: finish with success
    have hstep : step o c d reqs S k
        = { S with lock := none,
                   phase := Function.update S.phase k (Phase.done COutcome.success) } := by
      simp [step, hph, hlkk]
    rw [hstep]
    have hup : ∀ i, (Function.update S.phase k (Phase.done COutcome.success)) i
        = if i = k then Phase.done COutcome.success else S.phase i :=
      fun i => Function.update_apply S.phase k (Phase.done COutcome.success) i
    have hio : ∀ i,
        ins ({ S with lock := none, phase := Function.update S.phase k (Phase.done COutcome.success) } : Sys n) i ↔ ins S i := by
      intro i
      by_cases hik : i = k
      · subst hik
        simp [ins, hup, hph]
      · simp [ins, hup, hik]
    refine ⟨?_, ?_, ?_, ?_, ?_, ?_, ?_⟩
    · intro r hr
      rcases I.store_src r hr with h0 | ⟨i, hre, hi⟩
      · exact Or.inl h0
      · exact Or.inr ⟨i, hre, (hio i).mpr hi⟩
    · intro i hi
      exact I.ins_store i ((hio i).mp hi)
    · intro i j hi hj
      exact I.ins_unique i j ((hio i).mp hi) ((hio j).mp hj)
    · intro i
      constructor
      · intro h
        simp at h
      · intro h
        exfalso
        by_cases hik : i = k
        · subst hik
          rcases h with h | h | h <;> simp [hup] at h
        · have hcs : holdsCS S i := by
            rcases h with h | h | h
            · exact Or.inl (by simpa [hup, hik] using h)
            · exact Or.inr (Or.inl (by simpa [hup, hik] using h))
            · exact Or.inr (Or.inr (by simpa [hup, hik] using h))
          have := (I.lock_cs i).mpr hcs
          rw [hlkk] at this
          exact hik (Option.some.inj this).symm
    · rintro ⟨i, hi⟩
      simp only [hup] at hi
      have hi' : S.phase i = Phase.done COutcome.lockConflict := by
        by_cases hik : i = k
        · simp [hik] at hi
        · simpa [hik] using hi
      obtain ⟨j, hj⟩ := I.lc_witness ⟨i, hi'⟩
      rcases hj with hj | hj | hj
      · have hj' := (I.lock_cs j).mpr hj
        rw [hlkk] at hj'
        have hjk : k = j := Option.some.inj hj'
        subst hjk
        exact ⟨k, Or.inr (Or.inl (by simp [hup]))⟩
      · have hjk : j ≠ k := by
          intro h
          subst h
          rw [hph] at hj
          simp at hj
        exact ⟨j, Or.inr (Or.inl (by simp [hup, hjk, hj]))⟩
      · have hjk : j ≠ k := by
          intro h
          subst h
          rw [hph] at hj
          simp at hj
        exact ⟨j, Or.inr (Or.inr (by simp [hup, hjk, hj]))⟩
    · rintro ⟨i, hi⟩
      simp only [hup] at hi
      have hi' : S.phase i = Phase.done COutcome.overlapConflict
          ∨ S.phase i = Phase.txnDone false := by
        by_cases hik : i = k
        · simp [hik] at hi
        · simpa [hik] using hi
      obtain ⟨j, hj⟩ := I.oc_witness ⟨i, hi'⟩
      exact ⟨j, (hio j).mpr hj⟩
    · intro i hi
      exact I.filter_one i ((hio i).mp hi)

/-- Preservation of the invariant by any single step. -/
theorem inv_step {n : Nat} {o : String} {c d : Int}
    {s0 : List Core.Reservation} {reqs : Fin n → CreateReq}
    (hcd : c < d)
    (hinj : ∀ i j, (reqs i).tok = (reqs j).tok → i = j)
    (hfresh : ∀ i, ∀ r ∈ s0, r.idempotencyToken ≠ (reqs i).tok)
    (hov : Core.overlapExists s0 o c d = false)
    (hmatch : ∀ r ∈ s0, matchB o c d r = false)
    {S : Sys n} (I : Inv o c d s0 reqs S) (k : Fin n) :
    Inv o c d s0 reqs (step o c d reqs S k) := by
  rcases hph : S.phase k with _ | _ | _ | b | oc
  · exact inv_step_start hinj hfresh I k hph
  · exact inv_step_checked I k hph
  · exact inv_step_cs hcd hov hmatch I k hph
  · exact inv_step_txn I k b hph
  · have hstep : step o c d reqs S k = S := by
      simp only [step, hph]
    rw [hstep]
    exact I

/-- The invariant holds initially. -/
theorem inv_init {n : Nat} (o : String) (c d : Int) (s0 : List Core.Reservation)
    (reqs : Fin n → CreateReq) :
    Inv o c d s0 reqs (init n s0) := by
  refine ⟨?_, ?_, ?_, ?_, ?_, ?_, ?_⟩
  · intro r hr
    exact Or.inl hr
  · intro i hi
    rcases hi with h | h <;> simp [init] at h
  · intro i j hi _
    rcases hi with h | h <;> simp [init] at h
  · intro i
    constructor
    · intro h
      simp [init] at h
    · intro h
      rcases h with h | h | h <;> simp [init] at h
  · rintro ⟨i, hi⟩
    simp [init] at hi
  · rintro ⟨i, hi⟩
    rcases hi with h | h <;> simp [init] at h
  · intro i hi
    rcases hi with h | h <;> simp [init] at h

/-- The invariant holds after running any schedule from the initial state. -/
theorem inv_run {n : Nat} {o : String} {c d : Int}
    {s0 : List Core.Reservation} {reqs : Fin n → CreateReq}
    (hcd : c < d)
    (hinj : ∀ i j, (reqs i).tok = (reqs j).tok → i = j)
    (hfresh : ∀ i, ∀ r ∈ s0, r.idempotencyToken ≠ (reqs i).tok)
    (hov : Core.overlapExists s0 o c d = false)
    (hmatch : ∀ r ∈ s0, matchB o c d r = false)
    (sched : List (Fin n)) :
    ∀ S : Sys n, Inv o c d s0 reqs S →
      Inv o c d s0 reqs (run o c d reqs S sched) := by
  induction sched with
  | nil =>
    intro S I
    exact I
  | cons k rest ih =>
    intro S I
    exact ih (step o c d reqs S k) (inv_step hcd hinj hfresh hov hmatch I k)

end ConcurrentCreate

namespace ConcurrentCreate

/-- C1: mutual exclusion of concurrent creates.  For `n ≥ 2` concurrent
`createReservation` calls with the same owner and the same non-empty interval
`[c, d)` — pairwise-distinct fresh idempotency tokens, an initial store with
no overlapping live reservation and no row for that owner and interval — and
for every interleaving (schedule) under which all requests finish: exactly
one request finishes with `success`; every other finishes with
`lockConflict` or `overlapConflict` (never a silent second success); and the
final store contains exactly one reservation matching that owner and
interval. -/
theorem mutual_exclusion {n : Nat} (o : String) (c d : Int)
    (s0 : List Core.Reservation) (reqs : Fin n → CreateReq)
    (sched : List (Fin n))
    (hn : 2 ≤ n) (hcd : c < d)
    (hinj : ∀ i j, (reqs i).tok = (reqs j).tok → i = j)
    (hfresh : ∀ i, ∀ r ∈ s0, r.idempotencyToken ≠ (reqs i).tok)
    (hov : Core.overlapExists s0 o c d = false)
    (hmatch : ∀ r ∈ s0, matchB o c d r = false)
    (hall : ∀ i, ((run o c d reqs (init n s0) sched).phase i).isDone = true) :
    (∃! i, (run o c d reqs (init n s0) sched).phase i
        = Phase.done COutcome.success) ∧
    (∀ i oc, (run o c d reqs (init n s0) sched).phase i = Phase.done oc →
        oc ≠ COutcome.success →
        oc = COutcome.lockConflict ∨ oc = COutcome.overlapConflict) ∧
    ((run o c d reqs (init n s0) sched).store.filter (matchB o c d)).length = 1 := by
  have IF : Inv o c d s0 reqs (run o c d reqs (init n s0) sched) :=
    inv_run hcd hinj hfresh hov hmatch sched (init n s0) (inv_init o c d s0 reqs)
  have hdone : ∀ i, ∃ oc,
      (run o c d reqs (init n s0) sched).phase i = Phase.done oc :=
    fun i => (isDone_iff _).mp (hall i)
  have hOC : ∀ i, (run o c d reqs (init n s0) sched).phase i
      = Phase.done COutcome.overlapConflict →
      ∃ j, (run o c d reqs (init n s0) sched).phase j
        = Phase.done COutcome.success := by
    intro i hi
    obtain ⟨j, hj⟩ := IF.oc_witness ⟨i, Or.inl hi⟩
    rcases hj with hj | hj
    · obtain ⟨oc, hoc⟩ := hdone j
      rw [hoc] at hj
      simp at hj
    · exact ⟨j, hj⟩
  have hex : ∃ i, (run o c d reqs (init n s0) sched).phase i
      = Phase.done COutcome.success := by
    have i0 : Fin n := ⟨0, by omega⟩
    obtain ⟨oc0, h0⟩ := hdone i0
    cases oc0 with
    | success => exact ⟨i0, h0⟩
    | overlapConflict => exact hOC i0 h0
    | lockConflict =>
      obtain ⟨j, hj⟩ := IF.lc_witness ⟨i0, h0⟩
      rcases hj with (hj | hj | hj) | hj | hj
      · obtain ⟨oc, hoc⟩ := hdone j
        rw [hoc] at hj
        simp at hj
      · obtain ⟨oc, hoc⟩ := hdone j
        rw [hoc] at hj
        simp at hj
      · obtain ⟨oc, hoc⟩ := hdone j
        rw [hoc] at hj
        simp at hj
      · exact ⟨j, hj⟩
      · exact hOC j hj
  obtain ⟨iS, hiS⟩ := hex
  refine ⟨⟨iS, hiS, ?_⟩, ?_, ?_⟩
  · intro j hj
    exact IF.ins_unique j iS (Or.inr hj) (Or.inr hiS)
  · intro i oc _ hne
    cases oc with
    | success => exact absurd rfl hne
    | lockConflict => exact Or.inl rfl
    | overlapConflict => exact Or.inr rfl
  · rw [IF.filter_one iS (Or.inr hiS)]
    rfl

/-- Witness for C1: two concurrent create requests on owner `alice`,
interval `[0, 30)`, fresh distinct tokens, empty initial store, run under the
schedule in which request 0 completes and then request 1 runs (hitting the
overlap re-check). -/
theorem mutual_exclusion_witness :
    (∃! i : Fin 2,
        (run "alice" 0 30 ![⟨"t0", "r0", "m0"⟩, ⟨"t1", "r1", "m1"⟩]
            (init 2 []) [0, 0, 0, 0, 1, 1, 1, 1]).phase i
          = Phase.done COutcome.success) ∧
    (∀ (i : Fin 2) oc,
        (run "alice" 0 30 ![⟨"t0", "r0", "m0"⟩, ⟨"t1", "r1", "m1"⟩]
            (init 2 []) [0, 0, 0, 0, 1, 1, 1, 1]).phase i = Phase.done oc →
        oc ≠ COutcome.success →
        oc = COutcome.lockConflict ∨ oc = COutcome.overlapConflict) ∧
    ((run "alice" 0 30 ![⟨"t0", "r0", "m0"⟩, ⟨"t1", "r1", "m1"⟩]
        (init 2 []) [0, 0, 0, 0, 1, 1, 1, 1]).store.filter
          (matchB "alice" 0 30)).length = 1 :=
  mutual_exclusion "alice" 0 30 [] ![⟨"t0", "r0", "m0"⟩, ⟨"t1", "r1", "m1"⟩]
    [0, 0, 0, 0, 1, 1, 1, 1] (by decide) (by decide) (by decide)
    (by intro i r hr; cases hr) (by decide) (by intro r hr; cases hr)
    (by decide)

end ConcurrentCreate
